import Mathlib

/-!
Shallow embedding of `takiyasha/utils.py`: format sniffing over magic-byte
registries, glob-based encryption-scheme classification, file-extension
splitting, stream-capability validation, and byte-wise XOR.

Byte strings are modelled as `List Nat` (each element one byte value);
file names and format labels are modelled as `String` / `List Char`.
-/

namespace Takiyasha

/-- A byte string: a list of byte values. -/
abbrev ByteStr := List Nat

/-- Table `AUDIO_FILE_HEADER_FORMAT_MAP` from the source, as an ordered association
list (Python dicts preserve insertion order).  Each entry pairs a magic byte
sequence with its audio format label. -/
def AUDIO_FILE_HEADER_FORMAT_MAP : List (ByteStr × String) :=
  [([0x66, 0x4C, 0x61, 0x43], "flac"),
   ([0x49, 0x44, 0x33], "mp3"),
   ([0x4F, 0x67, 0x67, 0x53], "ogg"),
   ([0x66, 0x74, 0x79, 0x70], "m4a"),
   ([0x30, 0x26, 0xB2, 0x75, 0x8E, 0x66, 0xCF, 0x11,
     0xA6, 0xD9, 0x00, 0xAA, 0x00, 0x62, 0xCE, 0x6C], "wma"),
   ([0x52, 0x49, 0x46, 0x46], "wav"),
   ([0xFF, 0xF1], "aac"),
   ([0x46, 0x52, 0x4D, 0x38], "dff"),
   ([0x4D, 0x41, 0x43, 0x20], "ape")]

/-- Table `AUDIO_FILE_FORMAT_HEADER_MAP`: the reverse table, built from the forward
table exactly as the dict comprehension in the source builds it. -/
def AUDIO_FILE_FORMAT_HEADER_MAP : List (String × ByteStr) :=
  AUDIO_FILE_HEADER_FORMAT_MAP.map (fun p => (p.2, p.1))

/-- Table `IMAGE_FILE_HEADER_MIME_MAP` from the source. -/
def IMAGE_FILE_HEADER_MIME_MAP : List (ByteStr × String) :=
  [([0x89, 0x50, 0x4E, 0x47, 0x0D, 0x0A, 0x1A, 0x0A], "image/png"),
   ([0xFF, 0xD8, 0xFF], "image/jpeg"),
   ([0x42, 0x4D], "image/bmp")]

/-- Table `IMAGE_FILE_MIME_HEADER_MAP`: reverse of the image table. -/
def IMAGE_FILE_MIME_HEADER_MAP : List (String × ByteStr) :=
  IMAGE_FILE_HEADER_MIME_MAP.map (fun p => (p.2, p.1))

/-- The shared scan loop of `get_audio_format` / `get_image_mime`: walk the
registry in declaration order and return the label of the first entry whose
magic sequence is a prefix of `data` (`data.startswith(header)`). -/
def scanHeaders (m : List (ByteStr × String)) (data : ByteStr) : Option String :=
  match m with
  | [] => none
  | (header, fmt) :: rest =>
    if header.isPrefixOf data then some fmt else scanHeaders rest data

/-- Function `get_audio_format(data)` from the source. -/
def get_audio_format (data : ByteStr) : Option String :=
  scanHeaders AUDIO_FILE_HEADER_FORMAT_MAP data

/-- Function `get_image_mime(data)` from the source. -/
def get_image_mime (data : ByteStr) : Option String :=
  scanHeaders IMAGE_FILE_HEADER_MIME_MAP data

/-- Python's `str.removeprefix('.')`: drop one leading dot when present. -/
def removeDotPrefixOnce (s : String) : String :=
  match s.data with
  | '.' :: rest => String.mk rest
  | _ => s

/-- Dictionary lookup (`dict.get`) on an association list whose keys are
format labels. -/
def lookupFmt (m : List (String × ByteStr)) (fmt : String) : Option ByteStr :=
  match m with
  | [] => none
  | (k, v) :: rest => if k = fmt then some v else lookupFmt rest fmt

/-- Function `get_possible_audio_header(fmt)` from the source. -/
def get_possible_audio_header (fmt : String) : Option ByteStr :=
  lookupFmt AUDIO_FILE_FORMAT_HEADER_MAP (removeDotPrefixOnce fmt)

/-- Function `get_possible_image_header(fmt)` from the source. -/
def get_possible_image_header (fmt : String) : Option ByteStr :=
  lookupFmt IMAGE_FILE_MIME_HEADER_MAP (removeDotPrefixOnce fmt)

/-! ### Shell-glob matching (Python `fnmatch` semantics, POSIX case rules) -/

/-- One compiled token of a shell-glob pattern. -/
inductive GlobTok
  | lit (c : Char)
  | star
  | anychar
  | cls (neg : Bool) (content : List Char)
deriving DecidableEq

/-- Scan for the closing `]` of a character class, returning the class body
and the remainder of the pattern after the `]`. -/
def findClose : List Char → Option (List Char × List Char)
  | [] => none
  | ']' :: rest => some ([], rest)
  | c :: rest =>
    match findClose rest with
    | none => none
    | some (content, r) => some (c :: content, r)

/-- Membership of a character in a class body: `a-b` denotes a code-point
range, anything else is a literal; a trailing `-` is literal. -/
def inClass (c : Char) : List Char → Bool
  | [] => false
  | a :: '-' :: b :: rest =>
    (decide (a.val ≤ c.val) && decide (c.val ≤ b.val)) || inClass c rest
  | a :: rest => (a == c) || inClass c rest

/-- One step of pattern compilation, mirroring `fnmatch.translate`: `*`, `?`,
`[...]` with optional leading `!` (negation) and a literal leading `]`; a `[`
with no closing `]` is a literal character. -/
def globStep : List Char → Option (GlobTok × List Char)
  | [] => none
  | '*' :: rest => some (GlobTok.star, rest)
  | '?' :: rest => some (GlobTok.anychar, rest)
  | '[' :: rest =>
    match rest with
    | '!' :: ']' :: t =>
      match findClose t with
      | some (content, r) => some (GlobTok.cls true (']' :: content), r)
      | none => some (GlobTok.lit '[', rest)
    | '!' :: t =>
      match findClose t with
      | some (content, r) => some (GlobTok.cls true content, r)
      | none => some (GlobTok.lit '[', rest)
    | ']' :: t =>
      match findClose t with
      | some (content, r) => some (GlobTok.cls false (']' :: content), r)
      | none => some (GlobTok.lit '[', rest)
    | t =>
      match findClose t with
      | some (content, r) => some (GlobTok.cls false content, r)
      | none => some (GlobTok.lit '[', rest)
  | c :: rest => some (GlobTok.lit c, rest)

/-- Compile a whole pattern to tokens; the fuel argument is an upper bound on
the number of tokens (each step consumes at least one character). -/
def globCompileAux : Nat → List Char → List GlobTok
  | 0, _ => []
  | fuel + 1, p =>
    match globStep p with
    | none => []
    | some (tok, r) => tok :: globCompileAux fuel r

/-- Compile a shell-glob pattern to its token list. -/
def globCompile (p : List Char) : List GlobTok :=
  globCompileAux p.length p

/-- Anchored full match of a name against compiled tokens; the fuel argument
is an upper bound on recursion depth (every call shrinks tokens + name). -/
def globMatchAux : Nat → List GlobTok → List Char → Bool
  | 0, _, _ => false
  | fuel + 1, toks, name =>
    match toks, name with
    | [], [] => true
    | [], _ :: _ => false
    | GlobTok.star :: p, [] => globMatchAux fuel p []
    | GlobTok.star :: p, c :: n =>
      globMatchAux fuel p (c :: n) || globMatchAux fuel (GlobTok.star :: p) n
    | GlobTok.anychar :: p, _ :: n => globMatchAux fuel p n
    | GlobTok.anychar :: _, [] => false
    | GlobTok.lit a :: p, c :: n => (a == c) && globMatchAux fuel p n
    | GlobTok.lit _ :: _, [] => false
    | GlobTok.cls neg content :: p, c :: n =>
      (inClass c content != neg) && globMatchAux fuel p n
    | GlobTok.cls _ _ :: _, [] => false

/-- Python `fnmatch.fnmatch(name, pattern)` on a POSIX system (case is
preserved): anchored full-name shell-glob match. -/
def fnmatch (name pattern : List Char) : Bool :=
  let toks := globCompile pattern
  globMatchAux (toks.length + name.length + 1) toks name

/-- Table `SUPPORTED_FORMATS_PATTERNS` from the source: scheme name to ordered
glob patterns, schemes in declaration order. -/
def SUPPORTED_FORMATS_PATTERNS : List (String × List String) :=
  [("ncm", ["*.ncm"]),
   ("qmc", ["*.qmc[023468]", "*.qmcflac", "*.qmcogg",
            "*.tkm",
            "*.mflac", "*.mflac[0]", "*.mgg", "*.mgg[01l]",
            "*.bkcmp3", "*.bkcm4a", "*.bkcflac", "*.bkcwav",
            "*.bkcape", "*.bkcogg", "*.bkcwma"])]

/-- The inner loop of `get_encryption_format`: does any pattern of the scheme
match the name? -/
def anyPatternMatches (name : List Char) : List String → Bool
  | [] => false
  | pat :: rest => fnmatch name pat.data || anyPatternMatches name rest

/-- The outer loop of `get_encryption_format`: first scheme, in declaration
order, with a matching pattern. -/
def scanSchemes (name : List Char) : List (String × List String) → Option String
  | [] => none
  | (enctype, patterns) :: rest =>
    if anyPatternMatches name patterns then some enctype else scanSchemes name rest

/-- Function `get_encryption_format(name)` from the source. -/
def get_encryption_format (name : String) : Option String :=
  scanSchemes name.data SUPPORTED_FORMATS_PATTERNS

/-! ### `get_file_ext`: `os.path.splitext(name)[1]` under POSIX rules -/

/-- Python `str.rfind(ch)`: the highest index holding `ch`, or `-1`. -/
def rfindChar (ch : Char) : List Char → Int
  | [] => -1
  | c :: rest =>
    let r := rfindChar ch rest
    if r ≥ 0 then r + 1 else if c = ch then 0 else -1

/-- The scan loop of `posixpath.splitext`: walking `k` from `i` up to `d`,
return true at the first index whose character is not a dot (the loop then
returns the extension); fuel bounds the iteration count. -/
def splitextLoopAux : Nat → List Char → Nat → Nat → Bool
  | 0, _, _, _ => false
  | fuel + 1, p, i, d =>
    if i < d then
      if p[i]? = some '.' then splitextLoopAux fuel p (i + 1) d else true
    else false

/-- The scan loop of `posixpath.splitext` from index `i` (just past the last
separator) up to `d` (the last dot). -/
def splitextLoop (p : List Char) (i d : Nat) : Bool :=
  splitextLoopAux (d - i) p i d

/-- The extension computation of `posixpath.splitext` over the character list
of the name: the suffix from the last dot when that dot lies after the last
`/` and a non-dot character precedes it in the final component; otherwise
empty. -/
def getFileExtData (p : List Char) : List Char :=
  let sepIndex : Int := rfindChar '/' p
  let dotIndex : Int := rfindChar '.' p
  if sepIndex < dotIndex then
    if splitextLoop p (sepIndex + 1).toNat dotIndex.toNat
    then p.drop dotIndex.toNat else []
  else []

/-- Function `get_file_ext(name)` from the source, i.e. `os.path.splitext(name)[1]`
with POSIX separators. -/
def get_file_ext (name : String) : String :=
  String.mk (getFileExtData name.data)

/-- Claim C7 read literally: the suffix of the name from its last dot
(leading dot included), or empty when the name has no dot at all. -/
def lastDotSuffix : List Char → List Char
  | [] => []
  | c :: rest =>
    let r := lastDotSuffix rest
    if r ≠ [] then r else if c = '.' then c :: rest else []

/-- The claimed behaviour of `get_file_ext`, taken literally from the claim:
the last dot-delimited suffix of the whole name, or empty when none. -/
def claimed_file_extension (name : String) : String :=
  String.mk (lastDotSuffix name.data)

/-- The final path component of a name: everything after the last `/`. -/
def baseNameOf : List Char → List Char
  | [] => []
  | c :: rest => if c = '/' ∨ '/' ∈ rest then baseNameOf rest else c :: rest

/-- The amended C7 extension over characters: take the final path component,
discard its leading dots, and return the suffix from the last remaining dot
(or empty when none remains). -/
def amendedExtData (p : List Char) : List Char :=
  lastDotSuffix ((baseNameOf p).dropWhile (fun c => c = '.'))

/-- The amended behaviour of `get_file_ext`: the last dot-delimited suffix of
the final path component, except that the dots leading that component never
begin an extension. -/
def amended_file_extension (name : String) : String :=
  String.mk (amendedExtData name.data)

/-! ### Stream-capability validation (`raise_while_not_fileobj`) -/

/-- Outcome of calling `fileobj.read(0)` when a `read` attribute exists. -/
inductive ReadOutcome
  | ok_bytes
  | ok_text
  | raises
deriving DecidableEq

/-- Abstract model of a caller-supplied stream handle: what each of the three
operations would do if attempted (`none` meaning the attribute is absent, so
the attempt raises `AttributeError`), plus the caller-visible cursor position
and the stream size. -/
structure FileObj where
  read : Option ReadOutcome
  seek : Option Bool
  write : Option Bool
  pos : Nat
  size : Nat
deriving DecidableEq

/-- The three stream capabilities probed by the validator. -/
inductive Capability
  | Read
  | Seek
  | Write
deriving DecidableEq

/-- The `ValueError`s raised by `raise_while_not_fileobj`, classified by the
check that raised them: `notAFileObj cap` is the `"not a valid file object"`
branch (attribute absent) of the check for `cap`, `cannotUse cap` the
`"cannot read/seek/write"` branch, and `notBinaryMode` the
`"not opened in binary mode"` branch of the read check. -/
inductive StreamError
  | notAFileObj (cap : Capability)
  | cannotUse (cap : Capability)
  | notBinaryMode
deriving DecidableEq

/-- A probe attempted on the stream during validation. -/
inductive Probe
  | probeRead
  | probeSeek
  | probeWrite
deriving DecidableEq

/-- Function `raise_while_not_fileobj(fileobj, readable, seekable, writable)`
from the source.  Returns the probes attempted in order, the stream state
when the call returns or raises, and the first error raised (if any).  The
read probe is `read(0)` (no cursor movement), the seek probe is
`seek(0, os.SEEK_END)` (moves the cursor to end of stream), the write probe
is `write(b"")` (no change). -/
def raise_while_not_fileobj (f : FileObj) (readable seekable writable : Bool) :
    List Probe × FileObj × Option StreamError :=
  let t1 : List Probe := if readable then [Probe.probeRead] else []
  let e1 : Option StreamError :=
    if readable then
      match f.read with
      | none => some (StreamError.notAFileObj Capability.Read)
      | some ReadOutcome.raises => some (StreamError.cannotUse Capability.Read)
      | some ReadOutcome.ok_text => some StreamError.notBinaryMode
      | some ReadOutcome.ok_bytes => none
    else none
  match e1 with
  | some e => (t1, f, some e)
  | none =>
    let t2 : List Probe := if seekable then [Probe.probeSeek] else []
    let e2 : Option StreamError :=
      if seekable then
        match f.seek with
        | none => some (StreamError.notAFileObj Capability.Seek)
        | some true => some (StreamError.cannotUse Capability.Seek)
        | some false => none
      else none
    match e2 with
    | some e => (t1 ++ t2, f, some e)
    | none =>
      let f1 : FileObj := if seekable then { f with pos := f.size } else f
      let t3 : List Probe := if writable then [Probe.probeWrite] else []
      let e3 : Option StreamError :=
        if writable then
          match f1.write with
          | none => some (StreamError.notAFileObj Capability.Write)
          | some true => some (StreamError.cannotUse Capability.Write)
          | some false => none
        else none
      (t1 ++ t2 ++ t3, f1, e3)

/-- The capability named by an error (the check that raised it). -/
def errCapability : StreamError → Capability
  | StreamError.notAFileObj c => c
  | StreamError.cannotUse c => c
  | StreamError.notBinaryMode => Capability.Read

/-- The capability a probe exercises. -/
def probeCapability : Probe → Capability
  | Probe.probeRead => Capability.Read
  | Probe.probeSeek => Capability.Seek
  | Probe.probeWrite => Capability.Write

/-- Position of a capability in the fixed probing order read → seek → write. -/
def capRank : Capability → Nat
  | Capability.Read => 0
  | Capability.Seek => 1
  | Capability.Write => 2

/-- Rank of a validation outcome: the rank of the failing capability, or `3`
(past every probe) when validation succeeded. -/
def errRankOf : Option StreamError → Nat
  | some e => capRank (errCapability e)
  | none => 3

deriving instance DecidableEq for Except

/-! ### `xor_bytestrings` -/

/-- The error of `xor_bytestrings` (its `ValueError`). -/
inductive XorError
  | lengthMismatch
deriving DecidableEq

/-- Function `xor_bytestrings(term1, term2)` from the source: equal lengths required,
result is the element-wise XOR. -/
def xor_bytestrings (term1 term2 : ByteStr) : Except XorError ByteStr :=
  if term1.length ≠ term2.length then Except.error XorError.lengthMismatch
  else Except.ok (List.zipWith (fun b1 b2 => b1 ^^^ b2) term1 term2)

/-! ## Helper lemmas -/

lemma zipWith_xor_self (a : ByteStr) :
    List.zipWith (fun b1 b2 => b1 ^^^ b2) a a = List.replicate a.length 0 := by
  induction a with
  | nil => rfl
  | cons x xs ih => simp [List.replicate, Nat.xor_self, ih]

lemma zipWith_xor_cancel (a b : ByteStr) (h : a.length = b.length) :
    List.zipWith (fun b1 b2 => b1 ^^^ b2)
      (List.zipWith (fun b1 b2 => b1 ^^^ b2) a b) b = a := by
  induction a generalizing b with
  | nil => simp
  | cons x xs ih =>
    cases b with
    | nil => simp at h
    | cons y ys =>
      simp only [List.length_cons, Nat.succ.injEq] at h
      simp [Nat.xor_cancel_right, ih ys h]

lemma scanHeaders_eq_some {m : List (ByteStr × String)} {data : ByteStr} {fmt : String}
    (h : scanHeaders m data = some fmt) :
    ∃ hd, (hd, fmt) ∈ m ∧ hd.isPrefixOf data = true := by
  induction m with
  | nil => simp [scanHeaders] at h
  | cons p rest ih =>
    obtain ⟨hd0, fmt0⟩ := p
    by_cases hp : hd0.isPrefixOf data
    · simp [scanHeaders, hp] at h
      exact ⟨hd0, by simp [h], hp⟩
    · simp [scanHeaders, hp] at h
      obtain ⟨hd1, hmem, hpre⟩ := ih h
      exact ⟨hd1, by simp [hmem], hpre⟩

lemma scanHeaders_eq_none_iff (m : List (ByteStr × String)) (data : ByteStr) :
    scanHeaders m data = none ↔ ∀ p ∈ m, p.1.isPrefixOf data = false := by
  induction m with
  | nil => simp [scanHeaders]
  | cons p rest ih =>
    obtain ⟨hd0, fmt0⟩ := p
    by_cases hp : hd0.isPrefixOf data <;> simp [scanHeaders, hp, ih]

lemma audio_reverse_of_mem :
    ∀ p ∈ AUDIO_FILE_HEADER_FORMAT_MAP, get_possible_audio_header p.2 = some p.1 := by
  decide

lemma image_reverse_of_mem :
    ∀ p ∈ IMAGE_FILE_HEADER_MIME_MAP, get_possible_image_header p.2 = some p.1 := by
  decide

lemma audio_headers_min_length :
    ∀ p ∈ AUDIO_FILE_HEADER_FORMAT_MAP, 2 ≤ p.1.length := by
  decide

lemma image_headers_min_length :
    ∀ p ∈ IMAGE_FILE_HEADER_MIME_MAP, 2 ≤ p.1.length := by
  decide

lemma isPrefixOf_false_of_short {h data : ByteStr} (hlen : data.length < h.length) :
    h.isPrefixOf data = false := by
  by_contra hc
  have ht : h.isPrefixOf data = true := by
    cases hb : h.isPrefixOf data
    · exact absurd hb hc
    · rfl
  have := (List.isPrefixOf_iff_prefix.mp ht).length_le
  omega

lemma rfindChar_cons (ch c : Char) (l : List Char) :
    rfindChar ch (c :: l) =
      if rfindChar ch l ≥ 0 then rfindChar ch l + 1
      else if c = ch then 0 else -1 := rfl

lemma rfindChar_ge_neg_one (ch : Char) (l : List Char) : -1 ≤ rfindChar ch l := by
  induction l with
  | nil => simp [rfindChar]
  | cons c rest ih =>
    rw [rfindChar_cons]
    split
    · omega
    · split <;> omega

lemma rfindChar_nonneg_iff (ch : Char) (l : List Char) :
    0 ≤ rfindChar ch l ↔ ch ∈ l := by
  induction l with
  | nil => simp [rfindChar]
  | cons c rest ih =>
    rw [rfindChar_cons]
    by_cases h : rfindChar ch rest ≥ 0
    · rw [if_pos h]
      constructor
      · intro
        exact List.mem_cons_of_mem c (ih.mp h)
      · intro
        omega
    · rw [if_neg h]
      by_cases hc : c = ch
      · subst hc
        simp
      · rw [if_neg hc]
        simp only [List.mem_cons]
        constructor
        · intro h0
          omega
        · rintro (rfl | hm)
          · exact absurd rfl hc
          · exact absurd (ih.mpr hm) h

lemma rfindChar_of_not_mem (ch : Char) (l : List Char) (h : ch ∉ l) :
    rfindChar ch l = -1 := by
  have h1 := rfindChar_ge_neg_one ch l
  have h2 : ¬ 0 ≤ rfindChar ch l := fun h0 => h ((rfindChar_nonneg_iff ch l).mp h0)
  omega

lemma lastDotSuffix_ne_nil_iff (l : List Char) :
    lastDotSuffix l ≠ [] ↔ '.' ∈ l := by
  induction l with
  | nil => simp [lastDotSuffix]
  | cons c rest ih =>
    simp only [lastDotSuffix]
    by_cases h : lastDotSuffix rest ≠ []
    · rw [if_pos h]
      simp [h, List.mem_cons, ih.mp h]
    · rw [if_neg h]
      by_cases hc : c = '.'
      · subst hc
        simp
      · rw [if_neg hc]
        push_neg at h
        simp only [List.mem_cons, ne_eq, not_true_eq_false]
        constructor
        · intro hfalse
          exact hfalse.elim
        · rintro (hce | hm)
          · exact absurd hce.symm hc
          · exact absurd hm (fun hm2 => (ih.mpr hm2 : _) h)

lemma lastDotSuffix_eq_drop (l : List Char) (h : '.' ∈ l) :
    lastDotSuffix l = l.drop (rfindChar '.' l).toNat := by
  induction l with
  | nil => simp at h
  | cons c rest ih =>
    simp only [lastDotSuffix]
    by_cases hr : '.' ∈ rest
    · have hne : lastDotSuffix rest ≠ [] := (lastDotSuffix_ne_nil_iff rest).mpr hr
      rw [if_pos hne, ih hr]
      have h0 : 0 ≤ rfindChar '.' rest := (rfindChar_nonneg_iff _ _).mpr hr
      rw [rfindChar_cons, if_pos (by omega : rfindChar '.' rest ≥ 0)]
      have ht : (rfindChar '.' rest + 1).toNat = (rfindChar '.' rest).toNat + 1 := by
        omega
      rw [ht, List.drop_succ_cons]
    · have hnil : lastDotSuffix rest = [] := by
        by_contra hc
        exact hr ((lastDotSuffix_ne_nil_iff rest).mp hc)
      rw [if_neg (by simp [hnil])]
      have hc : c = '.' := by
        rcases List.mem_cons.mp h with h1 | h2
        · exact h1.symm
        · exact absurd h2 hr
      have hneg : ¬ rfindChar '.' rest ≥ 0 := by
        intro hge
        exact hr ((rfindChar_nonneg_iff '.' rest).mp hge)
      rw [if_pos hc, rfindChar_cons, if_neg hneg, if_pos hc]
      simp

lemma baseNameOf_no_slash (l : List Char) (h : '/' ∉ l) : baseNameOf l = l := by
  cases l with
  | nil => rfl
  | cons c rest =>
    have h1 : ¬ (c = '/' ∨ '/' ∈ rest) := by
      rintro (rfl | hm)
      · exact h (List.mem_cons_self _ _)
      · exact h (List.mem_cons_of_mem _ hm)
    simp [baseNameOf, h1]

lemma splitextLoopAux_shift (fuel : Nat) (p : List Char) (c : Char) (i d : Nat) :
    splitextLoopAux fuel (c :: p) (i + 1) (d + 1) = splitextLoopAux fuel p i d := by
  induction fuel generalizing i with
  | zero => rfl
  | succ n ih =>
    simp only [splitextLoopAux, List.getElem?_cons_succ]
    by_cases h : i < d
    · rw [if_pos (by omega : i + 1 < d + 1), if_pos h]
      by_cases hdot : p[i]? = some '.'
      · rw [if_pos hdot, if_pos hdot, ih]
      · rw [if_neg hdot, if_neg hdot]
    · rw [if_neg (by omega : ¬ i + 1 < d + 1), if_neg h]

lemma splitextLoop_shift (p : List Char) (c : Char) (i d : Nat) :
    splitextLoop (c :: p) (i + 1) (d + 1) = splitextLoop p i d := by
  unfold splitextLoop
  rw [Nat.succ_sub_succ]
  exact splitextLoopAux_shift _ _ _ _ _

lemma splitextLoop_zero_cons (p : List Char) (c : Char) (d : Nat) :
    splitextLoop (c :: p) 0 (d + 1) = if c = '.' then splitextLoop p 0 d else true := by
  unfold splitextLoop
  simp only [Nat.sub_zero]
  rw [show splitextLoopAux (d + 1) (c :: p) 0 (d + 1) =
      (if 0 < d + 1 then
        (if (c :: p)[0]? = some '.' then splitextLoopAux d (c :: p) 1 (d + 1) else true)
      else false) from rfl]
  rw [if_pos (by omega : 0 < d + 1)]
  simp only [List.getElem?_cons_zero]
  by_cases hc : c = '.'
  · rw [if_pos (by simp [hc]), if_pos hc]
    have : splitextLoopAux d (c :: p) 1 (d + 1) = splitextLoopAux d p 0 d :=
      splitextLoopAux_shift d p c 0 d
    rw [this]
  · rw [if_neg (by simp [hc]), if_neg hc]

lemma getFileExtData_eq_amended (p : List Char) :
    getFileExtData p = amendedExtData p := by
  induction p with
  | nil => rfl
  | cons c rest ih =>
    have hgeS := rfindChar_ge_neg_one '/' rest
    have hgeD := rfindChar_ge_neg_one '.' rest
    by_cases hs : c = '/' ∨ '/' ∈ rest
    · -- the final path component is that of `rest`
      have hb0 : baseNameOf (c :: rest) = baseNameOf rest := by
        simp only [baseNameOf]
        rw [if_pos hs]
      have hbase : amendedExtData (c :: rest) = amendedExtData rest := by
        simp only [amendedExtData, hb0]
      rw [hbase, ← ih]
      have e1 : rfindChar '/' (c :: rest) = rfindChar '/' rest + 1 := by
        by_cases hsr : '/' ∈ rest
        · have h0S : 0 ≤ rfindChar '/' rest := (rfindChar_nonneg_iff _ _).mpr hsr
          rw [rfindChar_cons, if_pos (by omega : rfindChar '/' rest ≥ 0)]
        · have hS1 : rfindChar '/' rest = -1 := rfindChar_of_not_mem _ _ hsr
          have hc : c = '/' := by
            rcases hs with rfl | hm
            · rfl
            · exact absurd hm hsr
          rw [rfindChar_cons, if_neg (by omega), if_pos hc, hS1]
          omega
      by_cases hd : '.' ∈ rest
      · have h0D : 0 ≤ rfindChar '.' rest := (rfindChar_nonneg_iff _ _).mpr hd
        have e2 : rfindChar '.' (c :: rest) = rfindChar '.' rest + 1 := by
          rw [rfindChar_cons, if_pos (by omega : rfindChar '.' rest ≥ 0)]
        simp only [getFileExtData, e1, e2]
        by_cases hlt : rfindChar '/' rest < rfindChar '.' rest
        · rw [if_pos (by omega : rfindChar '/' rest + 1 < rfindChar '.' rest + 1),
            if_pos hlt]
          have ha : (rfindChar '/' rest + 1 + 1).toNat
              = (rfindChar '/' rest + 1).toNat + 1 := by omega
          have hb : (rfindChar '.' rest + 1).toNat
              = (rfindChar '.' rest).toNat + 1 := by omega
          rw [ha, hb, splitextLoop_shift, List.drop_succ_cons]
        · rw [if_neg (by omega : ¬ rfindChar '/' rest + 1 < rfindChar '.' rest + 1),
            if_neg hlt]
      · have hD1 : rfindChar '.' rest = -1 := rfindChar_of_not_mem _ _ hd
        have e2le : rfindChar '.' (c :: rest) ≤ 0 := by
          rw [rfindChar_cons, if_neg (by omega)]
          split <;> omega
        have e1ge : 0 ≤ rfindChar '/' (c :: rest) := by omega
        simp only [getFileExtData]
        rw [if_neg (by omega : ¬ rfindChar '/' (c :: rest) < rfindChar '.' (c :: rest)),
          if_neg (by omega : ¬ rfindChar '/' rest < rfindChar '.' rest)]
    · -- no slash anywhere: the whole name is the final component
      push_neg at hs
      obtain ⟨hcs, hsr⟩ := hs
      have hS1 : rfindChar '/' rest = -1 := rfindChar_of_not_mem _ _ hsr
      have e1 : rfindChar '/' (c :: rest) = -1 := by
        rw [rfindChar_cons, if_neg (by omega), if_neg hcs]
      have hbase : baseNameOf (c :: rest) = c :: rest := by
        simp only [baseNameOf]
        rw [if_neg (by simp [hcs, hsr])]
      have hbr : baseNameOf rest = rest := baseNameOf_no_slash rest hsr
      by_cases hc : c = '.'
      · subst hc
        have hdw : List.dropWhile (fun x => x = '.') ('.' :: rest)
            = List.dropWhile (fun x => x = '.') rest := by
          simp [List.dropWhile_cons]
        have hAm : amendedExtData ('.' :: rest) = amendedExtData rest := by
          simp only [amendedExtData, hbase, hbr, hdw]
        rw [hAm, ← ih]
        by_cases hd : '.' ∈ rest
        · have h0D : 0 ≤ rfindChar '.' rest := (rfindChar_nonneg_iff _ _).mpr hd
          have e2 : rfindChar '.' ('.' :: rest) = rfindChar '.' rest + 1 := by
            rw [rfindChar_cons, if_pos (by omega : rfindChar '.' rest ≥ 0)]
          simp only [getFileExtData, e1, e2, hS1]
          rw [if_pos (by omega : (-1 : Int) < rfindChar '.' rest + 1),
            if_pos (by omega : (-1 : Int) < rfindChar '.' rest)]
          have ha : ((-1 : Int) + 1).toNat = 0 := by omega
          have hb : (rfindChar '.' rest + 1).toNat
              = (rfindChar '.' rest).toNat + 1 := by omega
          rw [ha, hb, splitextLoop_zero_cons, if_pos rfl, List.drop_succ_cons]
        · have hD1 : rfindChar '.' rest = -1 := rfindChar_of_not_mem _ _ hd
          have e2 : rfindChar '.' ('.' :: rest) = 0 := by
            rw [rfindChar_cons, if_neg (by omega), if_pos rfl]
          simp only [getFileExtData, e1, e2, hS1, hD1]
          rw [if_pos (by omega : (-1 : Int) < 0),
            if_neg (by omega : ¬ (-1 : Int) < -1)]
          have ha : ((-1 : Int) + 1).toNat = 0 := by omega
          rw [ha, show ((0 : Int)).toNat = 0 from rfl,
            show splitextLoop ('.' :: rest) 0 0 = false from rfl]
          simp
      · have hdw : List.dropWhile (fun x => x = '.') (c :: rest) = c :: rest := by
          simp [List.dropWhile_cons, hc]
        have hAm : amendedExtData (c :: rest) = lastDotSuffix (c :: rest) := by
          simp only [amendedExtData, hbase, hdw]
        rw [hAm]
        by_cases hd : '.' ∈ rest
        · have h0D : 0 ≤ rfindChar '.' rest := (rfindChar_nonneg_iff _ _).mpr hd
          have e2 : rfindChar '.' (c :: rest) = rfindChar '.' rest + 1 := by
            rw [rfindChar_cons, if_pos (by omega : rfindChar '.' rest ≥ 0)]
          have hmem : '.' ∈ c :: rest := List.mem_cons_of_mem _ hd
          rw [lastDotSuffix_eq_drop _ hmem, e2]
          simp only [getFileExtData, e1, e2]
          rw [if_pos (by omega : (-1 : Int) < rfindChar '.' rest + 1)]
          have ha : ((-1 : Int) + 1).toNat = 0 := by omega
          have hb : (rfindChar '.' rest + 1).toNat
              = (rfindChar '.' rest).toNat + 1 := by omega
          rw [ha, hb, splitextLoop_zero_cons, if_neg hc]
          simp
        · have hD1 : rfindChar '.' rest = -1 := rfindChar_of_not_mem _ _ hd
          have hmem : '.' ∉ c :: rest := by
            intro hmm
            rcases List.mem_cons.mp hmm with he | hm
            · exact hc he.symm
            · exact hd hm
          have hnil : lastDotSuffix (c :: rest) = [] := by
            by_contra hne
            exact hmem ((lastDotSuffix_ne_nil_iff _).mp hne)
          rw [hnil]
          have e2 : rfindChar '.' (c :: rest) = -1 := by
            rw [rfindChar_cons, if_neg (by omega), if_neg hc]
          simp only [getFileExtData, e1, e2]
          rw [if_neg (by omega : ¬ (-1 : Int) < -1)]

/-! ## Theorems for the claims -/

/-- C4: `xor_bytestrings(a, b)` fails with the length-mismatch error exactly
when the lengths differ; on equal lengths it returns a buffer of length
`len(a)` whose `i`-th byte is `a[i] XOR b[i]`, and `xor_bytestrings(a, a)` is
the all-zero buffer of length `len(a)`. -/
theorem xor_bytestrings_spec :
    (∀ a b : ByteStr,
      (xor_bytestrings a b = Except.error XorError.lengthMismatch ↔ a.length ≠ b.length)) ∧
    (∀ a b : ByteStr, a.length = b.length →
      ∃ r, xor_bytestrings a b = Except.ok r ∧ r.length = a.length ∧
        ∀ i, (hi : i < r.length) → (ha : i < a.length) → (hb : i < b.length) →
          r.get ⟨i, hi⟩ = a.get ⟨i, ha⟩ ^^^ b.get ⟨i, hb⟩) ∧
    (∀ a : ByteStr, xor_bytestrings a a = Except.ok (List.replicate a.length 0)) := by
  refine ⟨fun a b => ?_, fun a b hab => ?_, fun a => ?_⟩
  · by_cases h : a.length = b.length
    · simp [xor_bytestrings, h]
    · simp [xor_bytestrings, h]
  · refine ⟨List.zipWith (fun b1 b2 => b1 ^^^ b2) a b,
      by simp [xor_bytestrings, hab], ?_, ?_⟩
    · simp [hab]
    · intro i hi ha hb
      simp [List.get_eq_getElem, List.getElem_zipWith]
  · simp [xor_bytestrings, zipWith_xor_self]

/-- Witness for C4 on concrete inputs. -/
theorem xor_bytestrings_spec_witness :
    ∃ r, xor_bytestrings [1, 2] [3, 250] = Except.ok r ∧ r.length = 2 := by
  obtain ⟨r, hr, hlen, hget⟩ := xor_bytestrings_spec.2.1 [1, 2] [3, 250] (by decide)
  exact ⟨r, hr, hlen⟩

/-- C10: on equal lengths, XOR with a fixed second operand is an involution
(`xor(xor(a, b), b) = a`), and `xor_bytestrings` is commutative. -/
theorem xor_bytestrings_involution_comm :
    (∀ a b : ByteStr, a.length = b.length →
       ∃ r, xor_bytestrings a b = Except.ok r ∧ xor_bytestrings r b = Except.ok a) ∧
    (∀ a b : ByteStr, xor_bytestrings a b = xor_bytestrings b a) := by
  constructor
  · intro a b hab
    refine ⟨List.zipWith (fun b1 b2 => b1 ^^^ b2) a b,
      by simp [xor_bytestrings, hab], ?_⟩
    have hlen : (List.zipWith (fun b1 b2 => b1 ^^^ b2) a b).length = b.length := by
      simp [hab]
    simp [xor_bytestrings, hlen, zipWith_xor_cancel a b hab]
  · intro a b
    by_cases h : a.length = b.length
    · simp [xor_bytestrings, h,
        List.zipWith_comm_of_comm (fun b1 b2 => b1 ^^^ b2) Nat.xor_comm]
    · have h2 : ¬ b.length = a.length := fun he => h he.symm
      simp [xor_bytestrings, h, h2]

/-- Witness for C10 on concrete inputs. -/
theorem xor_bytestrings_involution_comm_witness :
    ∃ r, xor_bytestrings [7, 8] [9, 10] = Except.ok r ∧
      xor_bytestrings r [9, 10] = Except.ok [7, 8] :=
  xor_bytestrings_involution_comm.1 [7, 8] [9, 10] (by decide)

/-- C5: `get_encryption_format` classifies `"song.qmc3"` as `"qmc"`,
`"track.ncm"` as `"ncm"`, `"plain.mp3"` as unrecognized, and `"a.mflac0"` as
`"qmc"` (via the pattern `*.mflac[0]`), with schemes and patterns tried in
declaration order under anchored full-name shell-glob matching. -/
theorem get_encryption_format_examples :
    get_encryption_format "song.qmc3" = some "qmc" ∧
    get_encryption_format "track.ncm" = some "ncm" ∧
    get_encryption_format "plain.mp3" = none ∧
    get_encryption_format "a.mflac0" = some "qmc" ∧
    fnmatch ("a.mflac0".data) ("*.mflac[0]".data) = true := by
  decide

/-- C1: for every (header, label) entry of the audio and image registries and
every byte-string suffix, the sniffer applied to header ++ suffix returns
that entry's label. -/
theorem identify_format_on_header_plus_suffix :
    (∀ p ∈ AUDIO_FILE_HEADER_FORMAT_MAP, ∀ suffix : ByteStr,
       get_audio_format (p.1 ++ suffix) = some p.2) ∧
    (∀ p ∈ IMAGE_FILE_HEADER_MIME_MAP, ∀ suffix : ByteStr,
       get_image_mime (p.1 ++ suffix) = some p.2) := by
  constructor
  · intro p hp suffix
    fin_cases hp <;>
      simp [get_audio_format, AUDIO_FILE_HEADER_FORMAT_MAP, scanHeaders, List.isPrefixOf]
  · intro p hp suffix
    fin_cases hp <;>
      simp [get_image_mime, IMAGE_FILE_HEADER_MIME_MAP, scanHeaders, List.isPrefixOf]

/-- Witness for C1: the flac and bmp entries with concrete suffixes. -/
theorem identify_format_on_header_plus_suffix_witness :
    get_audio_format ([0x66, 0x4C, 0x61, 0x43] ++ [0, 1]) = some "flac" ∧
    get_image_mime ([0x42, 0x4D] ++ [9]) = some "image/bmp" :=
  ⟨identify_format_on_header_plus_suffix.1 ([0x66, 0x4C, 0x61, 0x43], "flac")
     (by decide) [0, 1],
   identify_format_on_header_plus_suffix.2 ([0x42, 0x4D], "image/bmp")
     (by decide) [9]⟩

/-- C2: for every registered (header, label) pair, the reverse lookup at the
label returns exactly the registered header, and the lookup with one leading
dot prepended to the label agrees with the bare-label lookup. -/
theorem header_reverse_lookup_roundtrip :
    (∀ p ∈ AUDIO_FILE_HEADER_FORMAT_MAP,
       get_possible_audio_header p.2 = some p.1 ∧
       get_possible_audio_header ("." ++ p.2) = get_possible_audio_header p.2) ∧
    (∀ p ∈ IMAGE_FILE_HEADER_MIME_MAP,
       get_possible_image_header p.2 = some p.1 ∧
       get_possible_image_header ("." ++ p.2) = get_possible_image_header p.2) := by
  decide

/-- Witness for C2 at the flac entry. -/
theorem header_reverse_lookup_roundtrip_witness :
    get_possible_audio_header "flac" = some [0x66, 0x4C, 0x61, 0x43] ∧
    get_possible_audio_header ("." ++ "flac") = get_possible_audio_header "flac" :=
  header_reverse_lookup_roundtrip.1 ([0x66, 0x4C, 0x61, 0x43], "flac") (by decide)

/-- C6: the sniffers return none whenever no registered magic sequence is a
prefix of the input, in particular on the empty byte string and on any buffer
shorter than every registered magic sequence (all of length at least 2); the
outcome is a normal none, not an error. -/
theorem sniffers_none_without_header_match :
    (∀ data : ByteStr,
       (∀ p ∈ AUDIO_FILE_HEADER_FORMAT_MAP, p.1.isPrefixOf data = false) →
       get_audio_format data = none) ∧
    (∀ data : ByteStr,
       (∀ p ∈ IMAGE_FILE_HEADER_MIME_MAP, p.1.isPrefixOf data = false) →
       get_image_mime data = none) ∧
    get_audio_format [] = none ∧
    get_image_mime [] = none ∧
    (∀ data : ByteStr, data.length < 2 → get_audio_format data = none) ∧
    (∀ data : ByteStr, data.length < 2 → get_image_mime data = none) := by
  refine ⟨fun data hnone => ?_, fun data hnone => ?_, by decide, by decide,
    fun data hshort => ?_, fun data hshort => ?_⟩
  · exact (scanHeaders_eq_none_iff _ _).mpr hnone
  · exact (scanHeaders_eq_none_iff _ _).mpr hnone
  · refine (scanHeaders_eq_none_iff _ _).mpr (fun p hp => ?_)
    exact isPrefixOf_false_of_short (by have := audio_headers_min_length p hp; omega)
  · refine (scanHeaders_eq_none_iff _ _).mpr (fun p hp => ?_)
    exact isPrefixOf_false_of_short (by have := image_headers_min_length p hp; omega)

/-- Witness for C6 on concrete inputs: a one-byte buffer matching no header. -/
theorem sniffers_none_without_header_match_witness :
    get_audio_format [0] = none ∧ get_image_mime [0] = none :=
  ⟨sniffers_none_without_header_match.2.2.2.2.1 [0] (by decide),
   sniffers_none_without_header_match.2.2.2.2.2 [0] (by decide)⟩

/-- C9: whenever a sniffer answers with a label, the reverse lookup at that
label returns a header that is a prefix of the sniffed data. -/
theorem sniff_result_has_registered_header :
    (∀ (data : ByteStr) (L : String), get_audio_format data = some L →
       ∃ h, get_possible_audio_header L = some h ∧ h.isPrefixOf data = true) ∧
    (∀ (data : ByteStr) (L : String), get_image_mime data = some L →
       ∃ h, get_possible_image_header L = some h ∧ h.isPrefixOf data = true) := by
  constructor
  · intro data L hL
    obtain ⟨hd, hmem, hpre⟩ := scanHeaders_eq_some hL
    exact ⟨hd, audio_reverse_of_mem (hd, L) hmem, hpre⟩
  · intro data L hL
    obtain ⟨hd, hmem, hpre⟩ := scanHeaders_eq_some hL
    exact ⟨hd, image_reverse_of_mem (hd, L) hmem, hpre⟩

/-- Witness for C9 on a concrete flac buffer. -/
theorem sniff_result_has_registered_header_witness :
    ∃ h, get_possible_audio_header "flac" = some h ∧
      h.isPrefixOf [0x66, 0x4C, 0x61, 0x43, 0] = true :=
  sniff_result_has_registered_header.1 [0x66, 0x4C, 0x61, 0x43, 0] "flac" (by decide)

/-- C3: the validator probes enabled capabilities in the fixed order
read → seek → write (the attempted-probe list is always an in-order sublist
of that sequence); when it raises, every probe attempted is at or before the
failing check (no later check is evaluated); and for a stream lacking seek,
with the default flags (read and seek enabled, write disabled), it raises
from the seek check and never attempts the write probe. -/
theorem validate_order_first_failure :
    (∀ (f : FileObj) (r s w : Bool),
       ((raise_while_not_fileobj f r s w).1).Sublist
         [Probe.probeRead, Probe.probeSeek, Probe.probeWrite]) ∧
    (∀ (f : FileObj) (r s w : Bool), ∀ p ∈ (raise_while_not_fileobj f r s w).1,
       capRank (probeCapability p) ≤ errRankOf (raise_while_not_fileobj f r s w).2.2) ∧
    (∀ f : FileObj, f.read = some ReadOutcome.ok_bytes → f.seek = none →
       raise_while_not_fileobj f true true false =
         ([Probe.probeRead, Probe.probeSeek], f,
          some (StreamError.notAFileObj Capability.Seek))) := by
  refine ⟨fun f r s w => ?_, fun f r s w => ?_, fun f hr hs => ?_⟩
  · obtain ⟨rd, sk, wr, fpos, fsize⟩ := f
    rcases rd with _ | ro <;> rcases sk with _ | sb <;> rcases wr with _ | wb <;>
      cases r <;> cases s <;> cases w
    all_goals try cases ro
    all_goals try cases sb
    all_goals try cases wb
    all_goals simp [raise_while_not_fileobj]
  · obtain ⟨rd, sk, wr, fpos, fsize⟩ := f
    rcases rd with _ | ro <;> rcases sk with _ | sb <;> rcases wr with _ | wb <;>
      cases r <;> cases s <;> cases w
    all_goals try cases ro
    all_goals try cases sb
    all_goals try cases wb
    all_goals simp [raise_while_not_fileobj, errRankOf, capRank, probeCapability,
      errCapability]
  · obtain ⟨rd, sk, wr, fpos, fsize⟩ := f
    simp only [FileObj.read] at hr
    simp only [FileObj.seek] at hs
    subst hr
    subst hs
    rfl

/-- Witness for C3 on a concrete stream lacking seek. -/
theorem validate_order_first_failure_witness :
    raise_while_not_fileobj
        (FileObj.mk (some ReadOutcome.ok_bytes) none (some false) 3 10) true true false =
      ([Probe.probeRead, Probe.probeSeek],
       FileObj.mk (some ReadOutcome.ok_bytes) none (some false) 3 10,
       some (StreamError.notAFileObj Capability.Seek)) :=
  validate_order_first_failure.2.2
    (FileObj.mk (some ReadOutcome.ok_bytes) none (some false) 3 10) rfl rfl

/-- C8: whenever the seek probe is attempted and seeking succeeds, the
validator leaves the stream with its cursor at end-of-stream (the prior
position is not restored) and modifies no other caller-visible stream state;
in general, validation either leaves the stream unchanged or changes exactly
the cursor position, to end-of-stream. -/
theorem validate_seek_moves_cursor_to_end :
    (∀ (f : FileObj) (r s w : Bool),
       Probe.probeSeek ∈ (raise_while_not_fileobj f r s w).1 →
       f.seek = some false →
       (raise_while_not_fileobj f r s w).2.1 = { f with pos := f.size }) ∧
    (∀ (f : FileObj) (r s w : Bool),
       (raise_while_not_fileobj f r s w).2.1 = f ∨
       (raise_while_not_fileobj f r s w).2.1 = { f with pos := f.size }) := by
  constructor
  · intro f r s w hmem hsk
    obtain ⟨rd, sk, wr, fpos, fsize⟩ := f
    simp only [FileObj.seek] at hsk
    subst hsk
    rcases rd with _ | ro <;> rcases wr with _ | wb <;> cases r <;> cases s <;> cases w
    all_goals try cases ro
    all_goals try cases wb
    all_goals first
      | rfl
      | simp [raise_while_not_fileobj] at hmem
  · intro f r s w
    obtain ⟨rd, sk, wr, fpos, fsize⟩ := f
    rcases rd with _ | ro <;> rcases sk with _ | sb <;> rcases wr with _ | wb <;>
      cases r <;> cases s <;> cases w
    all_goals try cases ro
    all_goals try cases sb
    all_goals try cases wb
    all_goals first | (left; rfl) | (right; rfl)

/-- Witness for C8 on a concrete stream whose cursor starts away from the
end. -/
theorem validate_seek_moves_cursor_to_end_witness :
    (raise_while_not_fileobj
        (FileObj.mk (some ReadOutcome.ok_bytes) (some false) (some false) 3 10)
        true true false).2.1 =
      { FileObj.mk (some ReadOutcome.ok_bytes) (some false) (some false) 3 10 with
          pos := 10 } :=
  validate_seek_moves_cursor_to_end.1
    (FileObj.mk (some ReadOutcome.ok_bytes) (some false) (some false) 3 10)
    true true false (by decide) rfl

/-- C7 counterexample: on the name `".bashrc"` the claimed rule — the suffix
from the last dot, here the whole name — disagrees with `get_file_ext`,
which returns the empty string; so the claim as stated fails at this input. -/
theorem get_file_ext_counterexample :
    get_file_ext ".bashrc" = "" ∧
    claimed_file_extension ".bashrc" = ".bashrc" ∧
    get_file_ext ".bashrc" ≠ claimed_file_extension ".bashrc" := by
  decide

/-- C7 amended: for every name, `get_file_ext` returns the last dot-delimited
suffix of the final path component (leading dot included) provided a non-dot
character of that component precedes the last dot, and the empty string
otherwise — i.e. it agrees with `amended_file_extension` on every name. -/
theorem get_file_ext_eq_amended (name : String) :
    get_file_ext name = amended_file_extension name := by
  simp only [get_file_ext, amended_file_extension, getFileExtData_eq_amended]

end Takiyasha
